import Mathlib

/-!
Verification of the Mononoke server core against its specification.

This development shallowly embeds the parts of the code base that the checked
properties are about:

* the generation-number BFS reachability index
  (`reachabilityindex/genbfs/src/lib.rs`),
* the sharded SQL blob store (`blobstore/sqlblob/src/store.rs`) together with
  an executable XxHash32 and a thrift-compact-protocol codec for its header,
* the wire-protocol command engine (`repo_client/src/client/mod.rs`):
  `hello` capabilities, `between`, `known`/`knownnodes`, per-command timeouts,
  and the `gettreepack` duplicate-entry filter,
* the bundle resolver's blob upload stage (`bundle2-resolver/src/upload_blobs.rs`).

Changeset hashes, node hashes and byte strings are modelled as natural numbers
and lists of naturals (a byte string is its byte sequence); fallible code
returns `Except`; the unbounded BFS / stream loops take an explicit fuel
argument together with a proof that the chosen fuel suffices.
-/

namespace Mononoke

/-! ## Commit DAG model

A commit DAG as the reachability index sees it through `ChangesetFetcher`:
a finite set of changesets, a parent map, and generation numbers.
`gen_lt` is the generation invariant from the data model: the generation of a
changeset strictly dominates the generations of its parents
(`gen(c) = 1 + max(gen(parents(c)))`). -/

structure Dag where
  nodes : Finset Nat
  parents : Nat → List Nat
  gen : Nat → Nat
  parents_mem : ∀ n ∈ nodes, ∀ p ∈ parents n, p ∈ nodes
  gen_lt : ∀ n ∈ nodes, ∀ p ∈ parents n, gen p < gen n

/-- `dst` is an ancestor of `src`: the reflexive-transitive closure of the
parent relation starting at `src` reaches `dst` (`src` is its own ancestor). -/
def Dag.Ancestor (g : Dag) (src dst : Nat) : Prop :=
  Relation.ReflTransGen (fun a b => b ∈ g.parents a) src dst

/-- One BFS layer step (`process_bfs_layer` in genbfs): add the current layer
to the seen set, collect the parents of every node of the layer, and keep as
the next layer those parents that are unseen and whose generation is at least
the generation of the destination. -/
def process_bfs_layer (g : Dag) (curr_layer curr_seen : Finset Nat)
    (dst_gen : Nat) : Finset Nat × Finset Nat :=
  ((curr_layer.biUnion fun n => (g.parents n).toFinset).filter
      (fun p => p ∉ curr_seen ∪ curr_layer ∧ dst_gen ≤ g.gen p),
    curr_seen ∪ curr_layer)

/-- The `loop_fn` body of `query_reachability`: break with `true` once the
layer contains `dst`, with `false` once the layer is empty, otherwise advance
by `process_bfs_layer`. The Rust loop is unbounded; the embedding spends one
unit of fuel per iteration and the correctness theorem shows that
`g.nodes.card + 1` fuel is never exhausted. -/
def bfs_loop (g : Dag) (dst dst_gen : Nat) : Nat → Finset Nat → Finset Nat → Bool
  | 0, _, _ => false
  | fuel + 1, curr_layer, curr_seen =>
    if dst ∈ curr_layer then true
    else if curr_layer = ∅ then false
    else
      bfs_loop g dst dst_gen fuel
        (process_bfs_layer g curr_layer curr_seen dst_gen).1
        (process_bfs_layer g curr_layer curr_seen dst_gen).2

/-- Modelled from the spec: `check_if_node_exists` lives in the
`reachabilityindex/common` crate, which is absent from the sources; per the
spec a missing `src` surfaces as `ChangesetMissing`. -/
def check_if_node_exists (g : Dag) (n : Nat) : Except String Unit :=
  if n ∈ g.nodes then .ok () else .error "ChangesetMissing"

/-- Modelled from the spec: `fetch_generation` lives in the
`reachabilityindex/common` crate, which is absent from the sources; per the
spec a missing `dst` is detected during its generation lookup. -/
def fetch_generation (g : Dag) (n : Nat) : Except String Nat :=
  if n ∈ g.nodes then .ok (g.gen n) else .error "ChangesetMissing"

/-- `GenerationNumberBFS::query_reachability`: check that `src` exists, fetch
the generation of `dst`, then run the bounded BFS from the frontier `{src}`
with an empty seen set. -/
def query_reachability (g : Dag) (src dst : Nat) : Except String Bool :=
  match check_if_node_exists g src with
  | .error e => .error e
  | .ok _ =>
    match fetch_generation g dst with
    | .error e => .error e
    | .ok dst_gen => .ok (bfs_loop g dst dst_gen (g.nodes.card + 1) {src} ∅)

/-! ## XxHash32

Executable model of the `twox_hash::XxHash32` hasher used by the sharded blob
store. All words are naturals kept below `2 ^ 32` by explicit reduction; the
implementation follows the published xxHash32 algorithm, and the test-vector
theorems below pin it to the reference digests. -/

def XXP1 : Nat := 2654435761

def XXP2 : Nat := 2246822519

def XXP3 : Nat := 3266489917

def XXP4 : Nat := 668265263

def XXP5 : Nat := 374761393

/-- Rotate a 32-bit value (a natural below `2 ^ 32`) left by `r` bits,
`0 < r < 32`. -/
def rotl32 (x r : Nat) : Nat := x % 2 ^ (32 - r) * 2 ^ r + x / 2 ^ (32 - r)

/-- A 32-bit little-endian lane read from four bytes. -/
def leWord (b0 b1 b2 b3 : Nat) : Nat := b0 + 256 * b1 + 65536 * b2 + 16777216 * b3

/-- One accumulator round of xxHash32. -/
def xxRound (acc lane : Nat) : Nat :=
  rotl32 ((acc + lane * XXP2) % 2 ^ 32) 13 * XXP1 % 2 ^ 32

/-- The 16-byte stripe loop: consume full stripes, return the four
accumulators and the remaining bytes. -/
def xxStripes : Nat → Nat → Nat → Nat → List Nat → Nat × Nat × Nat × Nat × List Nat
  | v1, v2, v3, v4,
    b0 :: b1 :: b2 :: b3 :: b4 :: b5 :: b6 :: b7 ::
    b8 :: b9 :: b10 :: b11 :: b12 :: b13 :: b14 :: b15 :: rest =>
      xxStripes (xxRound v1 (leWord b0 b1 b2 b3)) (xxRound v2 (leWord b4 b5 b6 b7))
        (xxRound v3 (leWord b8 b9 b10 b11)) (xxRound v4 (leWord b12 b13 b14 b15)) rest
  | v1, v2, v3, v4, rest => (v1, v2, v3, v4, rest)

/-- The four-byte tail loop. -/
def xxTail4 : Nat → List Nat → Nat × List Nat
  | h, b0 :: b1 :: b2 :: b3 :: rest =>
      xxTail4 (rotl32 ((h + leWord b0 b1 b2 b3 * XXP3) % 2 ^ 32) 17 * XXP4 % 2 ^ 32) rest
  | h, rest => (h, rest)

/-- The single-byte tail loop. -/
def xxTail1 : Nat → List Nat → Nat
  | h, [] => h
  | h, b :: rest => xxTail1 (rotl32 ((h + b * XXP5) % 2 ^ 32) 11 * XXP1 % 2 ^ 32) rest

/-- The final avalanche mix. -/
def xxAvalanche (h : Nat) : Nat :=
  Nat.xor (Nat.xor (Nat.xor h (h / 2 ^ 15) * XXP2 % 2 ^ 32)
      (Nat.xor h (h / 2 ^ 15) * XXP2 % 2 ^ 32 / 2 ^ 13) * XXP3 % 2 ^ 32)
    (Nat.xor (Nat.xor h (h / 2 ^ 15) * XXP2 % 2 ^ 32)
      (Nat.xor h (h / 2 ^ 15) * XXP2 % 2 ^ 32 / 2 ^ 13) * XXP3 % 2 ^ 32 / 2 ^ 16)

/-- xxHash32 of a byte sequence with the given seed. -/
def xxHash32 (seed : Nat) (input : List Nat) : Nat :=
  match (if 16 ≤ input.length then
      match xxStripes ((seed + XXP1 + XXP2) % 2 ^ 32) ((seed + XXP2) % 2 ^ 32)
          (seed % 2 ^ 32) ((seed + 2 ^ 32 - XXP1 % 2 ^ 32) % 2 ^ 32) input with
      | (v1, v2, v3, v4, rest) =>
        ((rotl32 v1 1 + rotl32 v2 7 + rotl32 v3 12 + rotl32 v4 18) % 2 ^ 32, rest)
    else ((seed + XXP5) % 2 ^ 32, input)) with
  | (h0, rest) =>
    match xxTail4 ((h0 + input.length) % 2 ^ 32) rest with
    | (h1, rest1) => xxAvalanche (xxTail1 h1 rest1)

/-! ## Sharded SQL blob store

Model of `blobstore/sqlblob/src/store.rs`. Keys are byte strings
(`List Nat`); a data row is keyed by `(shard, repo_id, id)` and holds a type
tag and a value, a chunk row is keyed by `(shard, repo_id, id, chunk_id)`.
Carrying the shard index in the key models the physically separate per-shard
databases selected by `read_connection[shard_id - 1]` and friends. -/

/-- Two's-complement unsigned reading of an `i32` (the bit pattern as a
natural). -/
def int32ToNat (i : Int) : Nat := (i % 2 ^ 32).toNat

/-- Rust's `as i32` conversion of a `usize`: two's-complement wrap into
`[-2 ^ 31, 2 ^ 31)`. -/
def wrapToInt32 (n : Nat) : Int :=
  if n % 2 ^ 32 < 2 ^ 31 then ((n % 2 ^ 32 : Nat) : Int)
  else ((n % 2 ^ 32 : Nat) : Int) - 2 ^ 32

/-- `Hasher::write_i32` feeds the four little-endian bytes of the value. -/
def i32LeBytes (i : Int) : List Nat :=
  [int32ToNat i % 256, int32ToNat i / 256 % 256,
    int32ToNat i / 65536 % 256, int32ToNat i / 16777216 % 256]

/-- `Hasher::write_u32` feeds the four little-endian bytes of the value. -/
def u32LeBytes (n : Nat) : List Nat :=
  [n % 256, n / 256 % 256, n / 65536 % 256, n / 16777216 % 256]

/-- `DataSqlStore::shard`: xxHash32 (seed 0) of the repo id's little-endian
bytes followed by the key bytes, reduced modulo the shard count, one-based. -/
def dataShard (repo_id : Int) (key : List Nat) (shard_num : Nat) : Nat :=
  xxHash32 0 (i32LeBytes repo_id ++ key) % shard_num + 1

/-- `ChunkSqlStore::shard`: like `dataShard` with the chunk id's four
little-endian bytes mixed in after the key. -/
def chunkShard (repo_id : Int) (key : List Nat) (chunk_id : Nat)
    (shard_num : Nat) : Nat :=
  xxHash32 0 (i32LeBytes repo_id ++ key ++ u32LeBytes chunk_id) % shard_num + 1

/-- Unsigned LEB128-style varint of the thrift compact protocol: seven value
bits per byte, high bit set on continuation bytes. Ten bytes of fuel cover
every value a 64-bit integer can produce. -/
def varintEncodeAux : Nat → Nat → List Nat
  | 0, n => [n % 128]
  | fuel + 1, n => if n < 128 then [n] else (n % 128 + 128) :: varintEncodeAux fuel (n / 128)

def varintEncode (n : Nat) : List Nat := varintEncodeAux 10 n

def varintDecode : List Nat → Option (Nat × List Nat)
  | [] => none
  | b :: rest =>
    if b < 128 then some (b, rest)
    else
      match varintDecode rest with
      | some (v, rem) => some (b % 128 + 128 * v, rem)
      | none => none

/-- Zigzag encoding of a signed integer, as the compact protocol applies to
an `i32`. -/
def zigzag32 (i : Int) : Nat := if 0 ≤ i then (2 * i).toNat else (-2 * i - 1).toNat

def unzigzag32 (z : Nat) : Int :=
  if z % 2 = 0 then ((z / 2 : Nat) : Int) else -((z / 2 : Nat) : Int) - 1

/-- The `InChunk` thrift union: the single recognized variant
`num_of_chunks(i32)` or an unrecognized field. -/
inductive InChunkT
  | num_of_chunks (n : Int)
  | UnknownField (id : Int)
deriving DecidableEq

/-- `compact_protocol::serialize(&InChunk::num_of_chunks(n))`: the struct
header byte `0x15` (field-id delta 1, type 5 = i32), the zigzag varint of the
value, and the stop byte. -/
def compactSerializeInChunk (n : Int) : List Nat :=
  21 :: varintEncode (zigzag32 n) ++ [0]

/-- `compact_protocol::deserialize` of an `InChunk` union: the recognized
header yields `num_of_chunks`, a well-formed but different field header
yields `UnknownField`, anything else fails. -/
def compactDeserializeInChunk (bs : List Nat) : Option InChunkT :=
  match bs with
  | [] => none
  | b :: rest =>
    if b = 21 then
      match varintDecode rest with
      | some (z, [0]) => some (.num_of_chunks (unzigzag32 z))
      | _ => none
    else if b = 0 then none
    else some (.UnknownField ((b / 16 : Nat) : Int))

/-- Modelled from the spec: `i32_to_non_zero_usize` lives in sqlblob's
`lib.rs`, which is absent from the sources; a chunk count that is not
strictly positive is rejected (`NonZeroUsize` from a positive `i32`). -/
def i32_to_non_zero_usize (i : Int) : Option Nat :=
  if 0 < i then some i.toNat else none

/-- The tag stored in the `type` column of the `data` table
(1 = Data, 2 = InChunk on the wire). -/
inductive DataType
  | data
  | inChunk
deriving DecidableEq

/-- `DataEntry` from sqlblob: inline bytes, or the number of chunks a large
value was split into (`NonZeroUsize`; positivity is a hypothesis where it
matters). -/
inductive DataEntry
  | Data (value : List Nat)
  | InChunk (num_of_chunks : Nat)
deriving DecidableEq

/-- One side's `data` and `chunk` SQL tables, in insertion order. -/
structure SqlTables where
  dataRows : List ((Nat × Int × List Nat) × DataType × List Nat)
  chunkRows : List ((Nat × Int × List Nat × Nat) × List Nat)

/-- Master and replica connection pools; writes go to master, replication is
outside the model (theorems hypothesize replica coherence). -/
structure BlobState where
  master : SqlTables
  replica : SqlTables

def emptyTables : SqlTables := ⟨[], []⟩

def emptyBlobState : BlobState := ⟨emptyTables, emptyTables⟩

/-- `SELECT type, value FROM data WHERE repo_id = ... AND id = ...` on one
connection, first returned row. -/
def selectData (t : SqlTables) (shard : Nat) (repo_id : Int) (key : List Nat) :
    Option (DataType × List Nat) :=
  (t.dataRows.find? fun r => r.1 == (shard, repo_id, key)).map (·.2)

/-- `SELECT value FROM chunk WHERE ...` on one connection, first row. -/
def selectChunk (t : SqlTables) (shard : Nat) (repo_id : Int) (key : List Nat)
    (chunk_id : Nat) : Option (List Nat) :=
  (t.chunkRows.find? fun r => r.1 == (shard, repo_id, key, chunk_id)).map (·.2)

/-- `insert_or_ignore INTO data`: the first row for a primary key wins. -/
def insertOrIgnoreData (t : SqlTables) (k : Nat × Int × List Nat)
    (row : DataType × List Nat) : SqlTables :=
  if (t.dataRows.find? fun r => r.1 == k).isSome then t
  else { t with dataRows := t.dataRows ++ [(k, row)] }

/-- `insert_or_ignore INTO chunk`. -/
def insertOrIgnoreChunk (t : SqlTables) (k : Nat × Int × List Nat × Nat)
    (value : List Nat) : SqlTables :=
  if (t.chunkRows.find? fun r => r.1 == k).isSome then t
  else { t with chunkRows := t.chunkRows ++ [(k, value)] }

/-- The `(type, value)` row `DataSqlStore::put` writes for an entry; the
`InChunk` count crosses `usize → i32` by wrapping. -/
def serializeDataEntry : DataEntry → DataType × List Nat
  | .Data value => (.data, value)
  | .InChunk n => (.inChunk, compactSerializeInChunk (wrapToInt32 n))

/-- `DataSqlStore::put`. -/
def dataPut (repo_id : Int) (shard_num : Nat) (st : BlobState) (key : List Nat)
    (entry : DataEntry) : BlobState :=
  ⟨insertOrIgnoreData st.master (dataShard repo_id key shard_num, repo_id, key)
      (serializeDataEntry entry), st.replica⟩

/-- Decoding of a fetched data row: the second `and_then` of
`DataSqlStore::get`. -/
def decodeDataRow : DataType × List Nat → Except String (Option DataEntry)
  | (.data, value) => .ok (some (.Data value))
  | (.inChunk, value) =>
    match compactDeserializeInChunk value with
    | some (.num_of_chunks n) =>
      match i32_to_non_zero_usize n with
      | none => .error "Encoded number of chunks was invalid"
      | some k => .ok (some (.InChunk k))
    | some (.UnknownField _) => .error "Failed to deserialize InChunk data"
    | none => .error "Failed to deserialize InChunk data"

/-- `DataSqlStore::get`: query the replica for the key's shard, query master
only when the replica returns no rows, then decode; a key absent on both
sides is `none`. -/
def dataGet (repo_id : Int) (shard_num : Nat) (st : BlobState) (key : List Nat) :
    Except String (Option DataEntry) :=
  match (match selectData st.replica (dataShard repo_id key shard_num) repo_id key with
         | some row => some row
         | none => selectData st.master (dataShard repo_id key shard_num) repo_id key) with
  | none => .ok none
  | some row => decodeDataRow row

/-- `ChunkSqlStore::get`: replica first, then master; a chunk missing on
master is a fatal error. -/
def chunkGet (repo_id : Int) (shard_num : Nat) (st : BlobState) (key : List Nat)
    (chunk_id : Nat) : Except String (List Nat) :=
  match selectChunk st.replica (chunkShard repo_id key chunk_id shard_num) repo_id
      key chunk_id with
  | some value => .ok value
  | none =>
    match selectChunk st.master (chunkShard repo_id key chunk_id shard_num) repo_id
        key chunk_id with
    | some value => .ok value
    | none => .error ("Missing chunk with id " ++ toString chunk_id ++ " shard "
        ++ toString (chunkShard repo_id key chunk_id shard_num))

/-- `ChunkSqlStore::put`. -/
def chunkPut (repo_id : Int) (shard_num : Nat) (st : BlobState) (key : List Nat)
    (chunk_id : Nat) (value : List Nat) : BlobState :=
  ⟨insertOrIgnoreChunk st.master
      (chunkShard repo_id key chunk_id shard_num, repo_id, key, chunk_id) value,
    st.replica⟩

/-- Replication-lag model: any row the replica already serves agrees with
master (rows are insert-or-ignore, so a replicated row never changes). -/
def ReplicaOk (st : BlobState) : Prop :=
  (∀ sh repo key row, selectData st.replica sh repo key = some row →
      selectData st.master sh repo key = some row)
  ∧ ∀ sh repo key cid v, selectChunk st.replica sh repo key cid = some v →
      selectChunk st.master sh repo key cid = some v

/-- The entries for which the put-get round trip holds: inline data, or a
chunk count that is a positive `i32`. -/
def EntryOk : DataEntry → Prop
  | .Data _ => True
  | .InChunk n => 1 ≤ n ∧ n < 2 ^ 31

instance {ε α : Type} [DecidableEq ε] [DecidableEq α] : DecidableEq (Except ε α) :=
  fun x y =>
    match x, y with
    | .error e, .error f =>
      match decEq e f with
      | isTrue h => isTrue (h ▸ rfl)
      | isFalse h => isFalse fun hh => h (Except.error.inj hh)
    | .ok a, .ok b =>
      match decEq a b with
      | isTrue h => isTrue (h ▸ rfl)
      | isFalse h => isFalse fun hh => h (Except.ok.inj hh)
    | .error _, .ok _ => isFalse fun hh => Except.noConfusion hh
    | .ok _, .error _ => isFalse fun hh => Except.noConfusion hh

/-- A state whose replica (and master, by coherence) holds an inline data row
for `repo 0`, key `[]` (whose shard with one shard is `1`). -/
def demoReplicaState : BlobState :=
  ⟨⟨[((1, 0, []), (DataType.data, [1]))], []⟩,
    ⟨[((1, 0, []), (DataType.data, [1]))], []⟩⟩

/-- A state where only master holds the row (replica lags). -/
def demoMasterState : BlobState :=
  ⟨⟨[((1, 0, []), (DataType.data, [2]))], []⟩, emptyTables⟩

/-! ## Wire protocol: hello capabilities -/

/-- `wireprotocaps()` from repo_client. -/
def wireprotocaps : List String :=
  ["clienttelemetry", "lookup", "known", "getbundle", "unbundle=HG10GZ,HG10BZ,HG10UN",
    "gettreepack", "remotefilelog", "pushkey", "stream-preferred", "stream_option",
    "streamreqs=generaldelta,lz4revlog,revlogv1", "treeonly", "knownnodes"]

/-- The capability table of `bundle2caps()`; `listkeys` is deliberately
commented out in the source. -/
def bundle2capsList : List (String × List String) :=
  [("HG20", []), ("changegroup", ["02"]), ("b2x:infinitepush", []),
    ("b2x:infinitepushscratchbookmarks", []), ("pushkey", []),
    ("treemanifestserver", ["True"]), ("b2x:rebase", []), ("b2x:rebasepackpart", []),
    ("phases", ["heads"])]

/-- The encoding loop of `bundle2caps()`: `key=v1,v2` when values exist,
bare `key` otherwise. -/
def encodeCap (c : String × List String) : String :=
  if c.2.length > 0 then c.1 ++ "=" ++ String.intercalate "," c.2 else c.1

def encodedcaps : List String := bundle2capsList.map encodeCap

/-- Modelled from the spec: `percent_encode` lives in mercurial_types' utils
module, which is absent from the sources; per the spec the bundle2 value is a
percent-encoded, newline-delimited list. Characters outside a conservative
safe set are written `%XX`. -/
def percentSafe (c : Char) : Bool :=
  c.isAlphanum || c = '=' || c = ',' || c = ':' || c = '-' || c = '_' || c = '.'

def hexDigitChar (n : Nat) : Char :=
  if n < 10 then Char.ofNat (48 + n) else Char.ofNat (55 + n)

def percentEncodeChars : List Char → List Char
  | [] => []
  | c :: cs =>
    if percentSafe c then c :: percentEncodeChars cs
    else '%' :: hexDigitChar (c.toNat / 16 % 16) :: hexDigitChar (c.toNat % 16) ::
      percentEncodeChars cs

def hexVal (c : Char) : Option Nat :=
  if 48 ≤ c.toNat ∧ c.toNat ≤ 57 then some (c.toNat - 48)
  else if 65 ≤ c.toNat ∧ c.toNat ≤ 70 then some (c.toNat - 55)
  else if 97 ≤ c.toNat ∧ c.toNat ≤ 102 then some (c.toNat - 87)
  else none

def percentDecodeChars : List Char → Option (List Char)
  | [] => some []
  | '%' :: h :: l :: rest =>
    match hexVal h, hexVal l, percentDecodeChars rest with
    | some a, some b, some r => some (Char.ofNat (16 * a + b) :: r)
    | _, _, _ => none
  | c :: rest =>
    if c = '%' then none
    else
      match percentDecodeChars rest with
      | some r => some (c :: r)
      | none => none

def percentEncode (s : String) : String := ⟨percentEncodeChars s.data⟩

def percentDecode (s : String) : Option String :=
  (percentDecodeChars s.data).map fun cs => ⟨cs⟩

/-- `bundle2caps()`: the percent-encoded newline join of the encoded caps. -/
def bundle2caps : String := percentEncode (String.intercalate "\n" encodedcaps)

/-- `RepoClient::hello`: one `capabilities` entry holding the wireproto caps
plus the `bundle2=` capability. -/
def hello : List (String × List String) :=
  [("capabilities", wireprotocaps ++ ["bundle2=" ++ bundle2caps])]

/-! ## Wire protocol: between -/

/-- The `ParentStream` of `RepoClient::between`: yield the current node, then
step to its first parent (`cs.p1().unwrap_or(NULL_HASH)`), stopping on
`bottom` or the null hash (modelled as `0`). The Rust stream is unbounded;
fuel bounds the embedding and any fuel at least the walk length gives the
full walk. -/
def parentWalk (p1 : Nat → Nat) (bottom : Nat) : Nat → Nat → List Nat
  | 0, _ => []
  | fuel + 1, n =>
    if n = bottom ∨ n = 0 then [] else n :: parentWalk p1 bottom fuel (p1 n)

/-- The `enumerate().filter(...)` of `between`: keep the element at position
`i` (zero-based) exactly when `i = f`, doubling `f` on every hit; `f` starts
at `1`. -/
def betweenFilter : Nat → Nat → List Nat → List Nat
  | _, _, [] => []
  | i, f, x :: xs =>
    if i = f then x :: betweenFilter (i + 1) (f * 2) xs
    else betweenFilter (i + 1) f xs

/-- One `(top, bottom)` pair of `between`. -/
def betweenOne (p1 : Nat → Nat) (fuel : Nat) (pair : Nat × Nat) : List Nat :=
  betweenFilter 0 1 (parentWalk p1 pair.2 fuel pair.1)

/-- `RepoClient::between` over its list of pairs. -/
def between (p1 : Nat → Nat) (fuel : Nat) (pairs : List (Nat × Nat)) :
    List (List Nat) :=
  pairs.map (betweenOne p1 fuel)

/-! ## Wire protocol: known / knownnodes -/

inductive Phase
  | Public
  | Draft
deriving DecidableEq

/-- The hg ↔ bonsai changeset mapping stored by the repository. -/
structure RepoMapping where
  pairs : List (Nat × Nat)

/-- The bonsai changeset a given hg changeset maps to, if it exists. -/
def lookupBcs (m : RepoMapping) (hg : Nat) : Option Nat :=
  (m.pairs.find? fun p => p.1 == hg).map (·.2)

/-- `get_hg_bonsai_mapping(nodes)`: the pairs for the requested nodes that
exist in the mapping. -/
def hgBonsaiMapping (m : RepoMapping) (nodes : List Nat) : List (Nat × Nat) :=
  nodes.filterMap fun n => (lookupBcs m n).map fun b => (n, b)

/-- The `found_hg_changesets` set of `RepoClient::known`: fetch phases for
the found bonsai ids (`phases_hint.get_all(...).calculated`; the phases
backend is modelled from the spec as a phase per changeset) and keep the hg
ids of the Public ones via the bonsai-to-hg mapping. -/
def knownFoundHg (m : RepoMapping) (phaseOf : Nat → Phase) (nodes : List Nat) :
    List Nat :=
  (((hgBonsaiMapping m nodes).map (·.2)).map fun b => (b, phaseOf b)).filterMap
    fun p =>
      if p.2 = Phase.Public
      then ((hgBonsaiMapping m nodes).find? fun q => q.2 == p.1).map (·.1)
      else none

/-- `RepoClient::known`: answer membership in the found-Public set for each
queried node, in order. -/
def known (m : RepoMapping) (phaseOf : Nat → Phase) (nodes : List Nat) :
    List Bool :=
  nodes.map fun n => (knownFoundHg m phaseOf nodes).contains n

/-- `RepoClient::knownnodes`: mere existence in the mapping. -/
def knownnodes (m : RepoMapping) (nodes : List Nat) : List Bool :=
  nodes.map fun n => ((hgBonsaiMapping m nodes).find? fun p => p.1 == n).isSome

/-- What the spec says `known` reports for one node: the changeset exists and
its phase is Public. -/
def knownSpec (m : RepoMapping) (phaseOf : Nat → Phase) (n : Nat) : Bool :=
  match lookupBcs m n with
  | some b => decide (phaseOf b = Phase.Public)
  | none => false

/-! ## Wire protocol: timeouts -/

inductive WireCmd
  | clienttelemetry
  | hello
  | unbundle
  | heads
  | lookup
  | listkeys
  | known
  | knownnodes
  | between
  | getbundle
  | gettreepack
  | getfiles
  | getpackv1
  | stream_out_shallow
deriving DecidableEq

/-- `timeout_duration()`, in seconds. -/
def timeout_duration : Nat := 15 * 60

/-- `getfiles_timeout_duration()`, in seconds. -/
def getfiles_timeout_duration : Nat := 90 * 60

/-- The wall-clock timeout each command handler wraps its result or response
stream with, read off the handlers in repo_client/src/client/mod.rs
(`getfiles` and `getpackv1` both use `getfiles_timeout_duration`). -/
def commandTimeout : WireCmd → Nat
  | .getfiles => getfiles_timeout_duration
  | .getpackv1 => getfiles_timeout_duration
  | _ => timeout_duration

/-- `process_timeout_error`: `into_inner()` of a fired timeout is `None` and
becomes the distinct "timeout" error. -/
def process_timeout_error (inner : Option String) : String :=
  match inner with
  | some err => err
  | none => "timeout"

/-- `StreamTimeoutError` from futures_ext. -/
inductive StreamTimeoutErr
  | error (e : String)
  | timeout
deriving DecidableEq

/-- `process_stream_timeout_error`. -/
def process_stream_timeout_error : StreamTimeoutErr → String
  | .error err => err
  | .timeout => "timeout"

/-! ## Bundle resolver: upload_blobs -/

/-- One step of the `upload_blobs` fold: add the uploaded `(hash, value)` to
the accumulated map, failing when the hash is already present
(`ensure_msg!(map.insert(key, value).is_none(), ...)`). -/
def uploadBlobsStep {V : Type} (map : List (Nat × V)) (kv : Nat × V) :
    Except String (List (Nat × V)) :=
  if (map.find? fun p => p.1 == kv.1).isSome then .error "Blob already provided before"
  else .ok (map ++ [kv])

/-- `upload_blobs`: fold the uploaded blobs into a map keyed by node hash. -/
def upload_blobs {V : Type} (blobs : List (Nat × V)) :
    Except String (List (Nat × V)) :=
  blobs.foldlM uploadBlobsStep []

/-! ## gettreepack entry deduplication -/

/-- The stateful `filter` of `gettreepack_untimed`: keep an entry iff
`used_hashes.insert(entry.get_hash())` newly inserts, i.e. drop every entry
whose hash was already emitted; `seen` holds the hashes emitted so far. -/
def dedupEntries {α : Type} (getHash : α → Nat) : List α → List Nat → List α
  | [], _ => []
  | x :: xs, seen =>
    if getHash x ∈ seen then dedupEntries getHash xs seen
    else x :: dedupEntries getHash xs (getHash x :: seen)

/-- The entry stream `gettreepack` feeds to `fetch_treepack_part_input`. -/
def gettreepackEmitted {α : Type} (getHash : α → Nat) (entries : List α) : List α :=
  dedupEntries getHash entries []

/-- Split a character sequence at newlines (total and structural, unlike
`String.splitOn`, so that concrete instances reduce in the kernel). -/
def splitNl : List Char → List (List Char)
  | [] => [[]]
  | c :: cs =>
    match splitNl cs with
    | [] => [[]]
    | r :: rs => if c = '\n' then [] :: r :: rs else (c :: r) :: rs

/-- A concrete hg-to-bonsai mapping used to instantiate the `known`
theorems. -/
def demoMapping : RepoMapping := ⟨[(10, 100), (20, 200)]⟩

/-- A concrete phase assignment: bonsai `100` is Public, everything else
Draft. -/
def demoPhase (b : Nat) : Phase := if b = 100 then Phase.Public else Phase.Draft

/-- A two-node DAG (a root `1` and its child `2`) used to instantiate the
reachability theorem on a concrete input. -/
def demoDag : Dag where
  nodes := {1, 2}
  parents := fun n => if n = 2 then [1] else []
  gen := fun n => n
  parents_mem := by decide
  gen_lt := by decide

end Mononoke

namespace Mononoke

/-! ## Reachability: proofs -/

/-- Generation numbers are antitone along the ancestor relation: any changeset
that reaches `v` has generation at least `gen v`. -/
theorem gen_le_of_ancestor (g : Dag) {u v : Nat} (h : g.Ancestor u v) :
    u ∈ g.nodes → g.gen v ≤ g.gen u := by
  induction h using Relation.ReflTransGen.head_induction_on with
  | refl => exact fun _ => le_rfl
  | head hstep _ ih =>
    intro hu
    have hc := g.parents_mem _ hu _ hstep
    exact le_trans (ih hc) (le_of_lt (g.gen_lt _ hu _ hstep))

/-- The node set is closed under the ancestor relation. -/
theorem mem_of_ancestor (g : Dag) {u v : Nat} (h : g.Ancestor u v) :
    u ∈ g.nodes → v ∈ g.nodes := by
  induction h using Relation.ReflTransGen.head_induction_on with
  | refl => exact id
  | head hstep _ ih => exact fun hu => ih (g.parents_mem _ hu _ hstep)

/-- The next layer produced by `process_bfs_layer`, unfolded. -/
theorem process_bfs_layer_fst (g : Dag) (layer seen : Finset Nat) (dst_gen : Nat) :
    (process_bfs_layer g layer seen dst_gen).1
      = (layer.biUnion fun n => (g.parents n).toFinset).filter
          (fun p => p ∉ seen ∪ layer ∧ dst_gen ≤ g.gen p) := rfl

/-- The updated seen set produced by `process_bfs_layer`, unfolded. -/
theorem process_bfs_layer_snd (g : Dag) (layer seen : Finset Nat) (dst_gen : Nat) :
    (process_bfs_layer g layer seen dst_gen).2 = seen ∪ layer := rfl

/-- Main loop invariant argument: with enough fuel, the generation-bounded BFS
decides ancestry. The hypotheses are the BFS invariants; they hold for the
initial state `({src}, ∅)`. -/
theorem bfs_loop_correct (g : Dag) (src dst : Nat) :
    ∀ (fuel : Nat) (layer seen : Finset Nat),
      (∀ x ∈ layer, x ∈ g.nodes) →
      (∀ x ∈ seen, x ∈ g.nodes) →
      Disjoint layer seen →
      (∀ x ∈ layer ∪ seen, g.Ancestor src x) →
      (∀ v ∈ seen, ∀ p ∈ g.parents v, g.gen dst ≤ g.gen p → p ∈ seen ∪ layer) →
      dst ∉ seen →
      src ∈ seen ∪ layer →
      g.nodes.card + 1 ≤ fuel + seen.card →
      (bfs_loop g dst (g.gen dst) fuel layer seen = true ↔ g.Ancestor src dst) := by
  intro fuel
  induction fuel with
  | zero =>
    intro layer seen _ hseen _ _ _ _ _ hcard
    have hsub : seen ⊆ g.nodes := fun x hx => hseen x hx
    have := Finset.card_le_card hsub
    omega
  | succ fuel ih =>
    intro layer seen hlay hseen hdisj hanc hclosed hdns hsrc hcard
    by_cases hmem : dst ∈ layer
    · rw [bfs_loop, if_pos hmem]
      exact iff_of_true rfl (hanc dst (Finset.mem_union_left _ hmem))
    · by_cases hemp : layer = ∅
      · rw [bfs_loop, if_neg hmem, if_pos hemp]
        refine iff_of_false (by simp) ?_
        intro hreach
        have hsrcseen : src ∈ seen := by
          rcases Finset.mem_union.mp hsrc with h | h
          · exact h
          · exact absurd h (by simp [hemp])
        have key : ∀ u, g.Ancestor u dst → u ∈ seen → dst ∈ seen := by
          intro u hu
          induction hu using Relation.ReflTransGen.head_induction_on with
          | refl => exact id
          | head hstep htail ih2 =>
            intro humem
            have hunodes := hseen _ humem
            have hcnodes := g.parents_mem _ hunodes _ hstep
            have hgen : g.gen dst ≤ g.gen _ := gen_le_of_ancestor g htail hcnodes
            have hin := hclosed _ humem _ hstep hgen
            rw [hemp] at hin
            exact ih2 (by simpa using hin)
        exact hdns (key src hreach hsrcseen)
      · rw [bfs_loop, if_neg hmem, if_neg hemp, process_bfs_layer_fst,
          process_bfs_layer_snd]
        have hnext_mem : ∀ x,
            x ∈ (layer.biUnion fun n => (g.parents n).toFinset).filter
                  (fun p => p ∉ seen ∪ layer ∧ g.gen dst ≤ g.gen p) →
            ∃ n ∈ layer, x ∈ g.parents n ∧ x ∉ seen ∪ layer ∧ g.gen dst ≤ g.gen x := by
          intro x hx
          obtain ⟨hbi, hcond⟩ := Finset.mem_filter.mp hx
          obtain ⟨n, hn, hxn⟩ := Finset.mem_biUnion.mp hbi
          exact ⟨n, hn, List.mem_toFinset.mp hxn, hcond.1, hcond.2⟩
        refine ih _ _ ?_ ?_ ?_ ?_ ?_ ?_ ?_ ?_
        · intro x hx
          obtain ⟨n, hn, hp, _, _⟩ := hnext_mem x hx
          exact g.parents_mem _ (hlay _ hn) _ hp
        · intro x hx
          rcases Finset.mem_union.mp hx with h | h
          · exact hseen _ h
          · exact hlay _ h
        · rw [Finset.disjoint_left]
          intro x hx
          obtain ⟨n, hn, hp, hns, hg⟩ := hnext_mem x hx
          exact hns
        · intro x hx
          rcases Finset.mem_union.mp hx with h | h
          · obtain ⟨n, hn, hp, _, _⟩ := hnext_mem x h
            exact Relation.ReflTransGen.tail (hanc n (Finset.mem_union_left _ hn)) hp
          · rcases Finset.mem_union.mp h with h' | h'
            · exact hanc x (Finset.mem_union_right _ h')
            · exact hanc x (Finset.mem_union_left _ h')
        · intro v hv p hp hgen
          rcases Finset.mem_union.mp hv with h | h
          · have := hclosed v h p hp hgen
            rcases Finset.mem_union.mp this with h' | h'
            · exact Finset.mem_union_left _ (Finset.mem_union_left _ h')
            · exact Finset.mem_union_left _ (Finset.mem_union_right _ h')
          · by_cases hpseen : p ∈ seen ∪ layer
            · exact Finset.mem_union_left _ hpseen
            · refine Finset.mem_union_right _ ?_
              refine Finset.mem_filter.mpr ⟨?_, hpseen, hgen⟩
              exact Finset.mem_biUnion.mpr ⟨v, h, List.mem_toFinset.mpr hp⟩
        · intro hdst
          rcases Finset.mem_union.mp hdst with h | h
          · exact hdns h
          · exact hmem h
        · exact Finset.mem_union_left _ hsrc
        · have hunion : (seen ∪ layer).card = layer.card + seen.card := by
            rw [Finset.union_comm]
            exact Finset.card_union_of_disjoint hdisj
          have hpos : 1 ≤ layer.card := by
            rcases Finset.nonempty_of_ne_empty hemp with ⟨x, hx⟩
            exact Finset.card_pos.mpr ⟨x, hx⟩
          omega

/-- Once both endpoints exist, `query_reachability` reduces to the BFS. -/
theorem query_reachability_eq (g : Dag) {src dst : Nat}
    (hsrc : src ∈ g.nodes) (hdst : dst ∈ g.nodes) :
    query_reachability g src dst
      = .ok (bfs_loop g dst (g.gen dst) (g.nodes.card + 1) {src} ∅) := by
  rw [query_reachability, check_if_node_exists, fetch_generation,
    if_pos hsrc, if_pos hdst]

/-- The BFS decides ancestry from the initial state. -/
theorem query_reachability_iff (g : Dag) {src dst : Nat}
    (hsrc : src ∈ g.nodes) (hdst : dst ∈ g.nodes) :
    query_reachability g src dst = .ok true ↔ g.Ancestor src dst := by
  rw [query_reachability_eq g hsrc hdst]
  have hbfs := bfs_loop_correct g src dst (g.nodes.card + 1) {src} ∅
    (by intro x hx; rwa [Finset.mem_singleton.mp hx])
    (by intro x hx; exact absurd hx (Finset.not_mem_empty x))
    (Finset.disjoint_empty_right _)
    (by
      intro x hx
      rcases Finset.mem_union.mp hx with h | h
      · rw [Finset.mem_singleton.mp h]
        exact Relation.ReflTransGen.refl
      · exact absurd h (Finset.not_mem_empty x))
    (by intro v hv; exact absurd hv (Finset.not_mem_empty v))
    (Finset.not_mem_empty dst)
    (Finset.mem_union_right _ (Finset.mem_singleton_self src))
    (by omega)
  constructor
  · intro h
    exact hbfs.mp (by simpa using h)
  · intro h
    simp [hbfs.mpr h]

/-- C1: for every commit DAG and every pair of changesets `(src, dst)` in the
repository, `query_reachability src dst` returns `true` iff `dst` is an
ancestor of `src`; in particular `query_reachability src src = true`, and for
`src` strictly descending from `root`, `query_reachability src root = true`
and `query_reachability root src = false`. -/
theorem C1_query_reachability_correct (g : Dag) (src dst root : Nat)
    (hsrc : src ∈ g.nodes) (hdst : dst ∈ g.nodes) (hroot : root ∈ g.nodes) :
    (query_reachability g src dst = .ok true ↔ g.Ancestor src dst)
    ∧ query_reachability g src src = .ok true
    ∧ (g.Ancestor src root → src ≠ root →
        query_reachability g src root = .ok true
        ∧ query_reachability g root src = .ok false) := by
  refine ⟨query_reachability_iff g hsrc hdst, ?_, ?_⟩
  · exact (query_reachability_iff g hsrc hsrc).mpr Relation.ReflTransGen.refl
  · intro hdesc hne
    refine ⟨(query_reachability_iff g hsrc hroot).mpr hdesc, ?_⟩
    have hlt : g.gen root < g.gen src := by
      rcases Relation.ReflTransGen.cases_head hdesc with h | ⟨c, hc, hcr⟩
      · exact absurd h hne
      · have hcnodes := g.parents_mem _ hsrc _ hc
        exact lt_of_le_of_lt (gen_le_of_ancestor g hcr hcnodes) (g.gen_lt _ hsrc _ hc)
    have hnot : ¬ g.Ancestor root src := by
      intro h
      have := gen_le_of_ancestor g h hroot
      omega
    rw [query_reachability_eq g hroot hsrc]
    rcases hb2 : bfs_loop g src (g.gen src) (g.nodes.card + 1) {root} ∅ with _ | _
    · rfl
    · exact absurd ((query_reachability_iff g hroot hsrc).mp
        (by rw [query_reachability_eq g hroot hsrc, hb2])) hnot

/-- Witness: the reachability theorem instantiated on the two-node DAG with
`src = 2`, `dst = root = 1`. -/
theorem C1_witness :
    (query_reachability demoDag 2 1 = .ok true ↔ demoDag.Ancestor 2 1)
    ∧ query_reachability demoDag 2 2 = .ok true
    ∧ (demoDag.Ancestor 2 1 → 2 ≠ 1 →
        query_reachability demoDag 2 1 = .ok true
        ∧ query_reachability demoDag 1 2 = .ok false) :=
  C1_query_reachability_correct demoDag 2 1 1 (by decide) (by decide) (by decide)

/-! ## Blob store: proofs -/

/-- xxHash32 reference vector, empty input. -/
theorem xxHash32_vec_empty : xxHash32 0 [] = 0x02CC5D05 := by decide

/-- xxHash32 reference vector, input "abc". -/
theorem xxHash32_vec_abc : xxHash32 0 [97, 98, 99] = 0x32D153FF := by decide

/-- xxHash32 reference vector, a 39-byte input exercising the stripe loop
("Nobody inspects the spammish repetition"). -/
theorem xxHash32_vec_long :
    xxHash32 0 [78, 111, 98, 111, 100, 121, 32, 105, 110, 115, 112, 101, 99,
      116, 115, 32, 116, 104, 101, 32, 115, 112, 97, 109, 109, 105, 115, 104,
      32, 114, 101, 112, 101, 116, 105, 116, 105, 111, 110] = 0xE2293B2F := by
  decide

/-- The varint decoder inverts the encoder on values within the fuel bound,
for any trailing bytes. -/
theorem varint_roundtrip :
    ∀ (fuel n : Nat), n < 128 ^ (fuel + 1) → ∀ t,
      varintDecode (varintEncodeAux fuel n ++ t) = some (n, t) := by
  intro fuel
  induction fuel with
  | zero =>
    intro n hn t
    have h : n < 128 := by simpa using hn
    simp [varintEncodeAux, varintDecode, Nat.mod_eq_of_lt h, h]
  | succ fuel ih =>
    intro n hn t
    by_cases h : n < 128
    · simp [varintEncodeAux, h, varintDecode]
    · rw [varintEncodeAux, if_neg h, List.cons_append, varintDecode]
      have hge : ¬ (n % 128 + 128 < 128) := by omega
      rw [if_neg hge]
      have hdiv : n / 128 < 128 ^ (fuel + 1) := by
        have h128 : 0 < (128 : Nat) := by norm_num
        rw [Nat.div_lt_iff_lt_mul h128]
        calc n < 128 ^ (fuel + 1 + 1) := hn
          _ = 128 ^ (fuel + 1) * 128 := by ring
      rw [ih (n / 128) hdiv t]
      show some ((n % 128 + 128) % 128 + 128 * (n / 128), t) = some (n, t)
      simp only [Option.some.injEq, Prod.mk.injEq]
      exact ⟨by omega, trivial⟩

/-- Zigzag decoding inverts zigzag encoding on every integer. -/
theorem unzigzag_zigzag (i : Int) : unzigzag32 (zigzag32 i) = i := by
  rw [zigzag32, unzigzag32]
  by_cases h : 0 ≤ i
  · rw [if_pos h]
    have h2 : (2 * i).toNat % 2 = 0 := by omega
    rw [if_pos h2]
    omega
  · rw [if_neg h]
    have h2 : ¬ ((-2 * i - 1).toNat % 2 = 0) := by omega
    rw [if_neg h2]
    omega

/-- Deserializing a serialized `num_of_chunks` header recovers the value, for
any `i32`. -/
theorem compact_roundtrip (n : Int) (h1 : -2 ^ 31 ≤ n) (h2 : n < 2 ^ 31) :
    compactDeserializeInChunk (compactSerializeInChunk n)
      = some (.num_of_chunks n) := by
  have hz : zigzag32 n < 128 ^ 11 := by
    have hb : zigzag32 n < 2 ^ 33 := by
      rw [zigzag32]
      by_cases h : 0 ≤ n
      · rw [if_pos h]; omega
      · rw [if_neg h]; omega
    calc zigzag32 n < 2 ^ 33 := hb
      _ < 128 ^ 11 := by norm_num
  rw [compactSerializeInChunk]
  have hstep : compactDeserializeInChunk (21 :: varintEncode (zigzag32 n) ++ [0])
      = match varintDecode (varintEncode (zigzag32 n) ++ [0]) with
        | some (z, [0]) => some (InChunkT.num_of_chunks (unzigzag32 z))
        | _ => none := by rfl
  rw [hstep, varintEncode, varint_roundtrip 10 (zigzag32 n) hz [0]]
  simp [unzigzag_zigzag]

/-- `find?` skips a prefix in which nothing matches. -/
theorem find?_append_of_none {α : Type} (l1 l2 : List α) (p : α → Bool)
    (h : l1.find? p = none) : (l1 ++ l2).find? p = l2.find? p := by
  induction l1 with
  | nil => rfl
  | cons x xs ih =>
    rcases hp : p x with _ | _
    · rw [List.cons_append, List.find?_cons_of_neg _ (by simp [hp])]
      rw [List.find?_cons_of_neg _ (by simp [hp])] at h
      exact ih h
    · rw [List.find?_cons_of_pos _ hp] at h
      exact absurd h (by simp)

/-- A `selectData` miss means the underlying `find?` misses. -/
theorem selectData_none_find? (t : SqlTables) (sh : Nat) (repo : Int)
    (key : List Nat) (h : selectData t sh repo key = none) :
    (t.dataRows.find? fun r => r.1 == (sh, repo, key)) = none := by
  rcases hx : t.dataRows.find? fun r => r.1 == (sh, repo, key) with _ | v
  · exact hx
  · rw [selectData, hx] at h
    exact absurd h (by simp)

/-- After inserting a fresh key, `selectData` returns the inserted row. -/
theorem selectData_insert_fresh (t : SqlTables) (sh : Nat) (repo : Int)
    (key : List Nat) (row : DataType × List Nat)
    (h : selectData t sh repo key = none) :
    selectData (insertOrIgnoreData t (sh, repo, key) row) sh repo key
      = some row := by
  have hf := selectData_none_find? t sh repo key h
  rw [insertOrIgnoreData, hf]
  simp only [Option.isSome_none, Bool.false_eq_true, if_false]
  rw [selectData]
  simp only []
  rw [find?_append_of_none _ _ _ hf]
  rw [List.find?_cons_of_pos _ (by simp)]
  rfl

/-- Inserting an already-present key leaves the table unchanged. -/
theorem insertOrIgnoreData_present (t : SqlTables) (k : Nat × Int × List Nat)
    (row : DataType × List Nat)
    (h : (t.dataRows.find? fun r => r.1 == k).isSome = true) :
    insertOrIgnoreData t k row = t := by
  rw [insertOrIgnoreData, if_pos h]

/-- A `selectData` hit means the underlying `find?` hits. -/
theorem selectData_some_find? (t : SqlTables) (sh : Nat) (repo : Int)
    (key : List Nat) (row : DataType × List Nat)
    (h : selectData t sh repo key = some row) :
    (t.dataRows.find? fun r => r.1 == (sh, repo, key)).isSome = true := by
  rcases hx : t.dataRows.find? fun r => r.1 == (sh, repo, key) with _ | v
  · rw [selectData, hx] at h
    exact absurd h (by simp)
  · rw [hx]
    rfl

/-- Decoding the row written for an entry recovers the entry, provided an
`InChunk` count fits in a positive `i32`. -/
theorem decode_serialize (e : DataEntry) (h : EntryOk e) :
    decodeDataRow (serializeDataEntry e) = .ok (some e) := by
  cases e with
  | Data v => rfl
  | InChunk n =>
    obtain ⟨h1, h2⟩ := h
    have hmod : n % 2 ^ 32 = n := Nat.mod_eq_of_lt (by omega)
    have hw : wrapToInt32 n = (n : Int) := by
      rw [wrapToInt32, hmod, if_pos (by omega)]
    rw [serializeDataEntry, hw, decodeDataRow]
    rw [compact_roundtrip (n : Int) (by omega) (by exact_mod_cast (by omega : n < 2 ^ 31))]
    have hpos : (0 : Int) < (n : Int) := by exact_mod_cast h1
    simp [i32_to_non_zero_usize, hpos]

/-- C2 (amended): putting a data entry whose chunk count (if any) is a
positive `i32` under a fresh key and reading it back returns exactly that
entry, and a second put under the same key is ignored (first write wins). -/
theorem C2_put_get_first_write_wins (repo_id : Int) (N : Nat) (st : BlobState)
    (key : List Nat) (e e' : DataEntry) (hrep : ReplicaOk st)
    (hfresh : selectData st.master (dataShard repo_id key N) repo_id key = none)
    (hok : EntryOk e) :
    dataGet repo_id N (dataPut repo_id N st key e) key = .ok (some e)
    ∧ dataGet repo_id N (dataPut repo_id N (dataPut repo_id N st key e) key e') key
        = .ok (some e) := by
  have hrepl : selectData st.replica (dataShard repo_id key N) repo_id key = none := by
    rcases hx : selectData st.replica (dataShard repo_id key N) repo_id key with _ | row
    · rfl
    · exact absurd (hrep.1 _ _ _ _ hx) (by rw [hfresh]; simp)
  have hm1 : selectData (dataPut repo_id N st key e).master (dataShard repo_id key N)
      repo_id key = some (serializeDataEntry e) :=
    selectData_insert_fresh _ _ _ _ _ hfresh
  have hget1 : dataGet repo_id N (dataPut repo_id N st key e) key = .ok (some e) := by
    rw [dataGet]
    have hr : (dataPut repo_id N st key e).replica = st.replica := rfl
    rw [hr, hrepl, hm1]
    exact decode_serialize e hok
  refine ⟨hget1, ?_⟩
  have hsome := selectData_some_find? _ _ _ _ _ hm1
  have hnoop : dataPut repo_id N (dataPut repo_id N st key e) key e'
      = dataPut repo_id N st key e := by
    show (⟨insertOrIgnoreData (dataPut repo_id N st key e).master
        (dataShard repo_id key N, repo_id, key) (serializeDataEntry e'),
        (dataPut repo_id N st key e).replica⟩ : BlobState)
      = dataPut repo_id N st key e
    rw [insertOrIgnoreData_present _ _ _ hsome]
  rw [hnoop]
  exact hget1

/-- Witness: put-get round trip and first-write-wins at repo `0`, one shard,
key `[]`, on the empty store. -/
theorem C2_witness :
    dataGet 0 1 (dataPut 0 1 emptyBlobState [] (DataEntry.Data [7])) []
      = .ok (some (DataEntry.Data [7]))
    ∧ dataGet 0 1 (dataPut 0 1 (dataPut 0 1 emptyBlobState [] (DataEntry.Data [7]))
        [] (DataEntry.InChunk 1)) [] = .ok (some (DataEntry.Data [7])) :=
  C2_put_get_first_write_wins 0 1 emptyBlobState [] (DataEntry.Data [7])
    (DataEntry.InChunk 1)
    ⟨fun sh repo key row hx => absurd hx (by simp [selectData, emptyBlobState, emptyTables]),
      fun sh repo key cid v hx => absurd hx (by simp [selectChunk, emptyBlobState, emptyTables])⟩
    rfl trivial

/-- C2 counterexample: for the entry `InChunk (2 ^ 31)` (allowed by the claim,
which only requires `n ≥ 1`) the chunk count wraps to a negative `i32` on
`put`, so `get` after `put` on a fresh key returns a decoding error, not the
entry. -/
theorem C2_counterexample :
    dataGet 0 1 (dataPut 0 1 emptyBlobState [] (DataEntry.InChunk (2 ^ 31))) []
      = .error "Encoded number of chunks was invalid"
    ∧ dataGet 0 1 (dataPut 0 1 emptyBlobState [] (DataEntry.InChunk (2 ^ 31))) []
      ≠ .ok (some (DataEntry.InChunk (2 ^ 31))) := by
  constructor
  · decide
  · decide

/-- C5: the blob-store read path. A row present on the replica decides the
result without consulting master; with an empty replica result the master row
decides; a top-level key absent on both returns `none`; a chunk absent on
both is a fatal `Missing chunk` error; and an `InChunk` header that fails to
deserialize, holds an unrecognized variant, or encodes a non-positive chunk
count is a fatal error — `decodeDataRow` of an `InChunk` row is never
`.ok none`. -/
theorem C5_get_read_path (repo_id : Int) (N : Nat) (st : BlobState)
    (key : List Nat) (chunk_id : Nat) (row : DataType × List Nat) (v : List Nat) :
    (selectData st.replica (dataShard repo_id key N) repo_id key = some row →
      (∀ m : SqlTables, dataGet repo_id N ⟨m, st.replica⟩ key = decodeDataRow row)
      ∧ dataGet repo_id N st key = decodeDataRow row)
    ∧ (selectData st.replica (dataShard repo_id key N) repo_id key = none →
        selectData st.master (dataShard repo_id key N) repo_id key = none →
        dataGet repo_id N st key = .ok none)
    ∧ (selectData st.replica (dataShard repo_id key N) repo_id key = none →
        selectData st.master (dataShard repo_id key N) repo_id key = some row →
        dataGet repo_id N st key = decodeDataRow row)
    ∧ (selectChunk st.replica (chunkShard repo_id key chunk_id N) repo_id key chunk_id
          = none →
        selectChunk st.master (chunkShard repo_id key chunk_id N) repo_id key chunk_id
          = none →
        chunkGet repo_id N st key chunk_id = .error ("Missing chunk with id "
          ++ toString chunk_id ++ " shard "
          ++ toString (chunkShard repo_id key chunk_id N)))
    ∧ (compactDeserializeInChunk v = none →
        decodeDataRow (DataType.inChunk, v) = .error "Failed to deserialize InChunk data")
    ∧ (∀ i, compactDeserializeInChunk v = some (.UnknownField i) →
        decodeDataRow (DataType.inChunk, v) = .error "Failed to deserialize InChunk data")
    ∧ (∀ n, compactDeserializeInChunk v = some (.num_of_chunks n) → n ≤ 0 →
        decodeDataRow (DataType.inChunk, v) = .error "Encoded number of chunks was invalid")
    ∧ decodeDataRow (DataType.inChunk, v) ≠ .ok none := by
  refine ⟨?_, ?_, ?_, ?_, ?_, ?_, ?_, ?_⟩
  · intro hrow
    constructor
    · intro m
      rw [dataGet]
      have hr : (⟨m, st.replica⟩ : BlobState).replica = st.replica := rfl
      rw [hr, hrow]
    · rw [dataGet, hrow]
  · intro h1 h2
    rw [dataGet, h1, h2]
  · intro h1 h2
    rw [dataGet, h1, h2]
  · intro h1 h2
    rw [chunkGet, h1, h2]
  · intro hd
    rw [decodeDataRow, hd]
  · intro i hd
    rw [decodeDataRow, hd]
  · intro n hd hn
    rw [decodeDataRow, hd]
    have hneg : ¬ (0 : Int) < n := by omega
    simp [i32_to_non_zero_usize, hneg]
  · cases hd : compactDeserializeInChunk v with
    | none => simp [decodeDataRow, hd]
    | some x =>
      cases x with
      | num_of_chunks n =>
        cases hi : i32_to_non_zero_usize n with
        | none => simp [decodeDataRow, hd, hi]
        | some k => simp [decodeDataRow, hd, hi]
      | UnknownField i => simp [decodeDataRow, hd]

/-- Witness: the read-path theorem applied at concrete stores: a replica hit,
a double miss, a master-only hit, a missing chunk, and the three corrupt
`InChunk` headers. -/
theorem C5_witness :
    ((∀ m : SqlTables, dataGet 0 1 ⟨m, demoReplicaState.replica⟩ []
        = decodeDataRow (DataType.data, [1]))
      ∧ dataGet 0 1 demoReplicaState [] = decodeDataRow (DataType.data, [1]))
    ∧ dataGet 0 1 emptyBlobState [] = .ok none
    ∧ dataGet 0 1 demoMasterState [] = decodeDataRow (DataType.data, [2])
    ∧ chunkGet 0 1 emptyBlobState [] 0 = .error ("Missing chunk with id "
        ++ toString 0 ++ " shard " ++ toString (chunkShard 0 [] 0 1))
    ∧ decodeDataRow (DataType.inChunk, []) = .error "Failed to deserialize InChunk data"
    ∧ decodeDataRow (DataType.inChunk, [99]) = .error "Failed to deserialize InChunk data"
    ∧ decodeDataRow (DataType.inChunk, compactSerializeInChunk 0)
        = .error "Encoded number of chunks was invalid"
    ∧ decodeDataRow (DataType.inChunk, [102]) ≠ .ok none := by
  refine ⟨?_, ?_, ?_, ?_, ?_, ?_, ?_, ?_⟩
  · exact (C5_get_read_path 0 1 demoReplicaState [] 0 (DataType.data, [1]) []).1 rfl
  · exact (C5_get_read_path 0 1 emptyBlobState [] 0 (DataType.data, [1]) []).2.1 rfl rfl
  · exact (C5_get_read_path 0 1 demoMasterState [] 0 (DataType.data, [2]) []).2.2.1 rfl rfl
  · exact (C5_get_read_path 0 1 emptyBlobState [] 0 (DataType.data, [1]) []).2.2.2.1 rfl rfl
  · exact (C5_get_read_path 0 1 emptyBlobState [] 0 (DataType.data, [1]) []).2.2.2.2.1 rfl
  · exact (C5_get_read_path 0 1 emptyBlobState [] 0 (DataType.data, [1]) [99]).2.2.2.2.2.1
      6 rfl
  · exact (C5_get_read_path 0 1 emptyBlobState [] 0 (DataType.data, [1])
      (compactSerializeInChunk 0)).2.2.2.2.2.2.1 0 (by decide) (by omega)
  · exact (C5_get_read_path 0 1 emptyBlobState [] 0 (DataType.data, [1])
      [102]).2.2.2.2.2.2.2

/-- C6: the shard for a data key is xxHash32 (seed 0) of the repo id's bytes
followed by the key bytes, modulo the shard count, one-based, hence always in
`[1, N]`; the chunk shard additionally mixes in the chunk id's four
little-endian bytes after the key. -/
theorem C6_shard_function (repo_id : Int) (key : List Nat) (chunk_id N : Nat)
    (hN : 1 ≤ N) :
    dataShard repo_id key N = xxHash32 0 (i32LeBytes repo_id ++ key) % N + 1
    ∧ 1 ≤ dataShard repo_id key N ∧ dataShard repo_id key N ≤ N
    ∧ chunkShard repo_id key chunk_id N
        = xxHash32 0 (i32LeBytes repo_id ++ key ++ u32LeBytes chunk_id) % N + 1
    ∧ 1 ≤ chunkShard repo_id key chunk_id N
    ∧ chunkShard repo_id key chunk_id N ≤ N := by
  have h1 : xxHash32 0 (i32LeBytes repo_id ++ key) % N < N :=
    Nat.mod_lt _ (by omega)
  have h2 : xxHash32 0 (i32LeBytes repo_id ++ key ++ u32LeBytes chunk_id) % N < N :=
    Nat.mod_lt _ (by omega)
  refine ⟨rfl, ?_, ?_, rfl, ?_, ?_⟩
  · rw [dataShard]; omega
  · rw [dataShard]; omega
  · rw [chunkShard]; omega
  · rw [chunkShard]; omega

/-- Witness: the shard theorem at repo `0`, key `[]`, chunk `0`, one shard. -/
theorem C6_witness :
    dataShard 0 [] 1 = xxHash32 0 (i32LeBytes 0 ++ []) % 1 + 1
    ∧ 1 ≤ dataShard 0 [] 1 ∧ dataShard 0 [] 1 ≤ 1
    ∧ chunkShard 0 [] 0 1 = xxHash32 0 (i32LeBytes 0 ++ [] ++ u32LeBytes 0) % 1 + 1
    ∧ 1 ≤ chunkShard 0 [] 0 1 ∧ chunkShard 0 [] 0 1 ≤ 1 :=
  C6_shard_function 0 [] 0 1 (by decide)

/-! ## hello capabilities: proofs -/

set_option maxRecDepth 8000 in
/-- C3 (amended): the hello capabilities contain the `bundle2=` entry; its
value percent-decodes to the newline-delimited sub-capability list; that list
contains `changegroup=02` and `phases=heads`, and no entry starts with
`listkeys`. -/
theorem C3_hello_bundle2 :
    ("capabilities", wireprotocaps ++ ["bundle2=" ++ bundle2caps]) ∈ hello
    ∧ percentDecode bundle2caps = some (String.intercalate "\n" encodedcaps)
    ∧ (splitNl (String.intercalate "\n" encodedcaps).data).map
        (fun cs => (⟨cs⟩ : String)) = encodedcaps
    ∧ "changegroup=02" ∈ encodedcaps
    ∧ "phases=heads" ∈ encodedcaps
    ∧ ∀ l ∈ encodedcaps, List.isPrefixOf "listkeys".data l.data = false :=
  ⟨by simp [hello], by decide, by decide, by decide, by decide, by decide⟩

set_option maxRecDepth 8000 in
/-- C3 counterexample: the decoded bundle2 sub-capabilities do not include
`changegroup=01,02` — the changegroup sub-capability is `changegroup=02`. -/
theorem C3_counterexample :
    percentDecode bundle2caps = some (String.intercalate "\n" encodedcaps)
    ∧ "changegroup=01,02" ∉ encodedcaps
    ∧ "changegroup=01,02" ∉ (splitNl (String.intercalate "\n" encodedcaps).data).map
        (fun cs => (⟨cs⟩ : String)) :=
  ⟨by decide, by decide, by decide⟩

/-! ## between: proofs -/

/-- On a linear chain `c 1 ← c 2 ← ... ` of pairwise-distinct non-null
hashes, the parent walk from `c (k + 1)` toward `c 1` yields
`[c (k + 1), c k, ..., c 2]`. -/
theorem parentWalk_chain (p1 c : Nat → Nat)
    (hinj : ∀ i ∈ Finset.Icc 1 20, ∀ j ∈ Finset.Icc 1 20, c i = c j → i = j)
    (hnz : ∀ i ∈ Finset.Icc 1 20, c i ≠ 0)
    (hpar : ∀ i ∈ Finset.Icc 2 20, p1 (c i) = c (i - 1)) :
    ∀ k, k + 1 ≤ 20 → ∀ fuel, k + 1 ≤ fuel →
      parentWalk p1 (c 1) fuel (c (k + 1))
        = (List.range k).map fun j => c (k + 1 - j) := by
  intro k
  induction k with
  | zero =>
    intro _ fuel hf
    rcases fuel with _ | fuel
    · omega
    · simp [parentWalk]
  | succ k ih =>
    intro h2 fuel hf
    rcases fuel with _ | fuel
    · omega
    have hmem : k + 2 ∈ Finset.Icc 1 20 := by
      rw [Finset.mem_Icc]; omega
    have hne1 : c (k + 2) ≠ c 1 := by
      intro hcc
      have := hinj (k + 2) hmem 1 (by rw [Finset.mem_Icc]; omega) hcc
      omega
    have hnz1 : c (k + 2) ≠ 0 := hnz (k + 2) hmem
    rw [parentWalk, if_neg (not_or.mpr ⟨hne1, hnz1⟩)]
    have hp : p1 (c (k + 2)) = c (k + 1) := by
      have := hpar (k + 2) (by rw [Finset.mem_Icc]; omega)
      simpa using this
    rw [hp, ih (by omega) fuel (by omega)]
    rw [List.range_succ_eq_map, List.map_cons, List.map_map]
    have hhead : c (k + 1 + 1 - 0) = c (k + 2) := by norm_num
    rw [hhead]
    congr 1
    apply List.map_congr_left
    intro j _
    have hj : k + 1 + 1 - (j + 1) = k + 1 - j := by omega
    simp only [Function.comp_apply, hj]

/-- C4 (amended): on every linear chain of 20 commits with pairwise-distinct
non-null hashes, `between [(c20, c1)]` returns exactly one list for the
pair, namely `[c19, c18, c16, c12, c4]` — the entries at zero-based indices
1, 2, 4, 8, 16 of the first-parent walk from the top (the top itself, index
0, is not emitted; the walk stops at `bottom` or a null hash without
emitting it). -/
theorem C4_between_20_chain (p1 c : Nat → Nat) (fuel : Nat)
    (hinj : ∀ i ∈ Finset.Icc 1 20, ∀ j ∈ Finset.Icc 1 20, c i = c j → i = j)
    (hnz : ∀ i ∈ Finset.Icc 1 20, c i ≠ 0)
    (hpar : ∀ i ∈ Finset.Icc 2 20, p1 (c i) = c (i - 1))
    (hfuel : 20 ≤ fuel) :
    between p1 fuel [(c 20, c 1)] = [[c 19, c 18, c 16, c 12, c 4]] := by
  have h1 : between p1 fuel [(c 20, c 1)]
      = [betweenFilter 0 1 (parentWalk p1 (c 1) fuel (c 20))] := rfl
  rw [h1]
  have hw := parentWalk_chain p1 c hinj hnz hpar 19 (by omega) fuel (by omega)
  norm_num at hw
  rw [hw]
  have hrange : List.range 19
      = [0, 1, 2, 3, 4, 5, 6, 7, 8, 9, 10, 11, 12, 13, 14, 15, 16, 17, 18] := by
    decide
  rw [hrange]
  norm_num [betweenFilter]

/-- Witness: the amended `between` theorem on the canonical chain
`c i = i` with first parent `n - 1`. -/
theorem C4_witness :
    between (fun n => n - 1) 25 [(20, 1)] = [[19, 18, 16, 12, 4]] :=
  C4_between_20_chain (fun n => n - 1) (fun i => i) 25 (by decide) (by decide)
    (by decide) (by omega)

/-- C4 counterexample: on the canonical 20-commit chain the code returns
`[[19, 18, 16, 12, 4]]` and not `[[20, 19, 17, 13, 5]]` as the claim
states — the `enumerate()` index is zero-based, so the top is dropped and
the kept indices are 1, 2, 4, 8, 16. -/
theorem C4_counterexample :
    between (fun n => n - 1) 25 [(20, 1)] ≠ [[20, 19, 17, 13, 5]]
    ∧ between (fun n => n - 1) 25 [(20, 1)] = [[19, 18, 16, 12, 4]] :=
  ⟨by decide, by decide⟩


/-! ## known / knownnodes: proofs -/

/-- Membership in `get_hg_bonsai_mapping(nodes)` is exactly: the node was
requested and the mapping holds it. -/
theorem mem_hgBonsaiMapping (m : RepoMapping) (nodes : List Nat) (x b : Nat) :
    (x, b) ∈ hgBonsaiMapping m nodes ↔ x ∈ nodes ∧ lookupBcs m x = some b := by
  rw [hgBonsaiMapping, List.mem_filterMap]
  constructor
  · rintro ⟨a, ha, hab⟩
    rcases hl : lookupBcs m a with _ | b'
    · rw [hl] at hab
      exact absurd hab (by simp)
    · rw [hl] at hab
      simp only [Option.map_some', Option.some.injEq, Prod.mk.injEq] at hab
      obtain ⟨hax, hbb⟩ := hab
      subst hax
      subst hbb
      exact ⟨ha, hl⟩
  · rintro ⟨hx, hl⟩
    exact ⟨x, hx, by rw [hl]; rfl⟩

/-- A successful `lookupBcs` exhibits a pair of the repository mapping. -/
theorem lookupBcs_mem_pairs (m : RepoMapping) (x b : Nat)
    (h : lookupBcs m x = some b) : (x, b) ∈ m.pairs := by
  rw [lookupBcs] at h
  rcases hf : m.pairs.find? fun p => p.1 == x with _ | q
  · rw [hf] at h
    exact absurd h (by simp)
  · rw [hf] at h
    simp only [Option.map_some', Option.some.injEq] at h
    have hq := List.mem_of_find?_eq_some hf
    have hpred := List.find?_some hf
    simp only [beq_iff_eq] at hpred
    have hqeq : q = (x, b) := by
      obtain ⟨q1, q2⟩ := q
      simp only at hpred h
      rw [hpred, h]
    rwa [hqeq] at hq

/-- Characterization of the found-Public set: an hg id is in it iff it was
requested, exists, and its bonsai changeset is Public (the bonsai-to-hg
direction uses the repository invariant that the mapping is injective in the
bonsai id). -/
theorem mem_knownFoundHg (m : RepoMapping) (phaseOf : Nat → Phase)
    (nodes : List Nat)
    (hinj : ∀ p ∈ m.pairs, ∀ q ∈ m.pairs, p.2 = q.2 → p = q) (x : Nat) :
    x ∈ knownFoundHg m phaseOf nodes ↔
      x ∈ nodes ∧ ∃ b, lookupBcs m x = some b ∧ phaseOf b = Phase.Public := by
  have hcomp : knownFoundHg m phaseOf nodes
      = ((hgBonsaiMapping m nodes).map (·.2)).filterMap fun b =>
          if phaseOf b = Phase.Public
          then ((hgBonsaiMapping m nodes).find? fun q => q.2 == b).map (·.1)
          else none := by
    rw [knownFoundHg, List.filterMap_map]
    rfl
  rw [hcomp, List.mem_filterMap]
  constructor
  · rintro ⟨b, hb, hsel⟩
    rw [List.mem_map] at hb
    obtain ⟨q, hq, hq2⟩ := hb
    by_cases hpub : phaseOf b = Phase.Public
    · rw [if_pos hpub] at hsel
      rcases hfind : (hgBonsaiMapping m nodes).find? fun r => r.2 == b with _ | w
      · rw [hfind] at hsel
        exact absurd hsel (by simp)
      · rw [hfind] at hsel
        simp only [Option.map_some', Option.some.injEq] at hsel
        have hwmem := List.mem_of_find?_eq_some hfind
        have hwpred := List.find?_some hfind
        simp only [beq_iff_eq] at hwpred
        have hxb : (x, b) ∈ hgBonsaiMapping m nodes := by
          have hweq : w = (x, b) := by
            obtain ⟨w1, w2⟩ := w
            simp only at hsel hwpred
            rw [hsel, hwpred]
          rwa [hweq] at hwmem
        have hme := (mem_hgBonsaiMapping m nodes x b).mp hxb
        exact ⟨hme.1, b, hme.2, hpub⟩
    · rw [if_neg hpub] at hsel
      exact absurd hsel (by simp)
  · rintro ⟨hx, b, hl, hpub⟩
    have hxbH : (x, b) ∈ hgBonsaiMapping m nodes :=
      (mem_hgBonsaiMapping m nodes x b).mpr ⟨hx, hl⟩
    refine ⟨b, ?_, ?_⟩
    · rw [List.mem_map]
      exact ⟨(x, b), hxbH, rfl⟩
    · rw [if_pos hpub]
      rcases hfind : (hgBonsaiMapping m nodes).find? fun r => r.2 == b with _ | w
      · have hnone := List.find?_eq_none.mp hfind (x, b) hxbH
        exact absurd (by simp) hnone
      · have hwmem := List.mem_of_find?_eq_some hfind
        have hwpred := List.find?_some hfind
        simp only [beq_iff_eq] at hwpred
        have hw := (mem_hgBonsaiMapping m nodes w.1 w.2).mp hwmem
        have hp1 := lookupBcs_mem_pairs m w.1 w.2 hw.2
        have hp2 := lookupBcs_mem_pairs m x b hl
        have hps : ((w.1, w.2) : Nat × Nat).2 = ((x, b) : Nat × Nat).2 := hwpred
        have hweq := hinj (w.1, w.2) hp1 (x, b) hp2 hps
        simp only [Prod.mk.injEq] at hweq
        rw [hfind, Option.map_some', hweq.1]

/-- C7: `known` is, entrywise and in order, existence-and-Public of each
queried node; `knownnodes` is mere existence; both are empty on the empty
query. The hypothesis is the repository invariant that the hg-bonsai mapping
is injective in the bonsai id. -/
theorem C7_known_knownnodes (m : RepoMapping) (phaseOf : Nat → Phase)
    (nodes : List Nat)
    (hinj : ∀ p ∈ m.pairs, ∀ q ∈ m.pairs, p.2 = q.2 → p = q) :
    known m phaseOf nodes = nodes.map (knownSpec m phaseOf)
    ∧ knownnodes m nodes = (nodes.map fun n => (lookupBcs m n).isSome)
    ∧ known m phaseOf [] = []
    ∧ knownnodes m [] = [] := by
  refine ⟨?_, ?_, rfl, rfl⟩
  · rw [known]
    apply List.map_congr_left
    intro n hn
    rcases hl : lookupBcs m n with _ | b
    · have hks : knownSpec m phaseOf n = false := by simp [knownSpec, hl]
      rw [hks]
      refine Bool.eq_false_iff.mpr ?_
      intro hc
      obtain ⟨-, b, hl', -⟩ :=
        (mem_knownFoundHg m phaseOf nodes hinj n).mp (List.elem_iff.mp hc)
      rw [hl] at hl'
      exact Option.noConfusion hl'
    · by_cases hpub : phaseOf b = Phase.Public
      · have hks : knownSpec m phaseOf n = true := by simp [knownSpec, hl, hpub]
        rw [hks]
        exact List.elem_iff.mpr
          ((mem_knownFoundHg m phaseOf nodes hinj n).mpr ⟨hn, b, hl, hpub⟩)
      · have hks : knownSpec m phaseOf n = false := by simp [knownSpec, hl, hpub]
        rw [hks]
        refine Bool.eq_false_iff.mpr ?_
        intro hc
        obtain ⟨-, b', hl', hpub'⟩ :=
          (mem_knownFoundHg m phaseOf nodes hinj n).mp (List.elem_iff.mp hc)
        rw [hl] at hl'
        exact hpub (Option.some.inj hl' ▸ hpub')
  · rw [knownnodes]
    apply List.map_congr_left
    intro n hn
    rcases hl : lookupBcs m n with _ | b
    · rcases hfind : (hgBonsaiMapping m nodes).find? fun p => p.1 == n with _ | q
      · rw [hfind]
        rfl
      · have hqmem := List.mem_of_find?_eq_some hfind
        have hqpred := List.find?_some hfind
        simp only [beq_iff_eq] at hqpred
        have hq := (mem_hgBonsaiMapping m nodes q.1 q.2).mp hqmem
        rw [hqpred, hl] at hq
        exact Option.noConfusion hq.2
    · have hmem : (n, b) ∈ hgBonsaiMapping m nodes :=
        (mem_hgBonsaiMapping m nodes n b).mpr ⟨hn, hl⟩
      have hfound : ((hgBonsaiMapping m nodes).find? fun p => p.1 == n).isSome = true := by
        rw [List.find?_isSome]
        exact ⟨(n, b), hmem, by simp⟩
      rw [hfound]
      rfl

/-- Witness: the `known`/`knownnodes` theorem on a two-pair mapping with one
Public changeset and a query containing a hit, a Draft hit, and a miss. -/
theorem C7_witness :
    known demoMapping demoPhase [10, 20, 30]
      = [10, 20, 30].map (knownSpec demoMapping demoPhase)
    ∧ knownnodes demoMapping [10, 20, 30]
      = ([10, 20, 30].map fun n => (lookupBcs demoMapping n).isSome)
    ∧ known demoMapping demoPhase [] = []
    ∧ knownnodes demoMapping [] = [] :=
  C7_known_knownnodes demoMapping demoPhase [10, 20, 30] (by decide)

/-! ## Timeouts: proofs -/

/-- C8 (amended): every wire-protocol command is wrapped in the 15-minute
timeout except `getfiles` and `getpackv1`, which both use the 90-minute
`getfiles_timeout_duration`; a fired timeout surfaces as the distinct
`"timeout"` error rather than a partial result. -/
theorem C8_command_timeouts (c : WireCmd)
    (h : c ≠ WireCmd.getfiles ∧ c ≠ WireCmd.getpackv1) :
    commandTimeout c = 15 * 60
    ∧ commandTimeout WireCmd.getfiles = 90 * 60
    ∧ commandTimeout WireCmd.getpackv1 = 90 * 60
    ∧ process_stream_timeout_error StreamTimeoutErr.timeout = "timeout"
    ∧ process_timeout_error none = "timeout" := by
  refine ⟨?_, rfl, rfl, rfl, rfl⟩
  rcases c <;> first | rfl | exact absurd rfl h.1 | exact absurd rfl h.2

/-- Witness: the timeout table at `hello`. -/
theorem C8_witness :
    commandTimeout WireCmd.hello = 15 * 60
    ∧ commandTimeout WireCmd.getfiles = 90 * 60
    ∧ commandTimeout WireCmd.getpackv1 = 90 * 60
    ∧ process_stream_timeout_error StreamTimeoutErr.timeout = "timeout"
    ∧ process_timeout_error none = "timeout" :=
  C8_command_timeouts WireCmd.hello (by decide)

/-- C8 counterexample: `getfiles` is not the only exception — `getpackv1`
also wraps its stream in the 90-minute `getfiles_timeout_duration` rather
than the 15-minute default. -/
theorem C8_counterexample :
    commandTimeout WireCmd.getpackv1 ≠ 15 * 60
    ∧ commandTimeout WireCmd.getpackv1 = getfiles_timeout_duration :=
  ⟨by decide, rfl⟩

/-! ## upload_blobs: proofs -/

/-- Folding blobs whose keys freshly extend a duplicate-free accumulator
succeeds and appends them all. -/
theorem upload_blobs_aux_ok {V : Type} :
    ∀ (blobs acc : List (Nat × V)),
      ((acc ++ blobs).map Prod.fst).Nodup →
      blobs.foldlM uploadBlobsStep acc = .ok (acc ++ blobs) := by
  intro blobs
  induction blobs with
  | nil =>
    intro acc _
    simp only [List.foldlM_nil, List.append_nil]
    rfl
  | cons kv bs ih =>
    intro acc h
    have hfresh : kv.1 ∉ acc.map Prod.fst := by
      intro hmem
      rw [List.map_append, List.nodup_append] at h
      exact h.2.2 hmem (by simp)
    have hnone : (acc.find? fun p => p.1 == kv.1) = none := by
      rw [List.find?_eq_none]
      intro p hp
      simp only [beq_iff_eq]
      intro hpe
      exact hfresh (hpe ▸ List.mem_map_of_mem Prod.fst hp)
    rw [List.foldlM_cons, uploadBlobsStep, hnone]
    simp only [Option.isSome_none, Bool.false_eq_true, if_false]
    show bs.foldlM uploadBlobsStep (acc ++ [kv]) = Except.ok (acc ++ kv :: bs)
    have heq : (acc ++ [kv]) ++ bs = acc ++ kv :: bs := by
      rw [List.append_assoc, List.singleton_append]
    have hres := ih (acc ++ [kv]) (by rw [heq]; exact h)
    rw [heq] at hres
    exact hres

/-- Folding blobs that introduce a duplicate key over a duplicate-free
accumulator fails with the fixed message. -/
theorem upload_blobs_aux_err {V : Type} :
    ∀ (blobs acc : List (Nat × V)),
      (acc.map Prod.fst).Nodup →
      ¬ ((acc ++ blobs).map Prod.fst).Nodup →
      blobs.foldlM uploadBlobsStep acc = .error "Blob already provided before" := by
  intro blobs
  induction blobs with
  | nil =>
    intro acc h hn
    exact absurd (by simpa using h) hn
  | cons kv bs ih =>
    intro acc h hn
    by_cases hdup : (acc.find? fun p => p.1 == kv.1).isSome = true
    · rw [List.foldlM_cons, uploadBlobsStep, if_pos hdup]
      rfl
    · have hnone : (acc.find? fun p => p.1 == kv.1) = none := by
        rcases hf : acc.find? fun p => p.1 == kv.1 with _ | q
        · exact hf
        · exact absurd (by rw [hf]; rfl) hdup
      have hfresh : kv.1 ∉ acc.map Prod.fst := by
        intro hmem
        rw [List.mem_map] at hmem
        obtain ⟨p, hp, hpe⟩ := hmem
        have hne := List.find?_eq_none.mp hnone p hp
        simp only [beq_iff_eq] at hne
        exact hne hpe
      rw [List.foldlM_cons, uploadBlobsStep, hnone]
      simp only [Option.isSome_none, Bool.false_eq_true, if_false]
      show bs.foldlM uploadBlobsStep (acc ++ [kv]) = Except.error "Blob already provided before"
      have heq : (acc ++ [kv]) ++ bs = acc ++ kv :: bs := by
        rw [List.append_assoc, List.singleton_append]
      have hacc' : ((acc ++ [kv]).map Prod.fst).Nodup := by
        rw [List.map_append, List.nodup_append]
        refine ⟨h, by simp, ?_⟩
        intro a ha hb
        simp only [List.map_cons, List.map_nil, List.mem_singleton] at hb
        rw [hb] at ha
        exact hfresh ha
      exact ih (acc ++ [kv]) hacc' (by rw [heq]; exact hn)

/-- C9: within one unbundle, `upload_blobs` over blobs with pairwise-distinct
node hashes succeeds and returns the map holding exactly one entry per blob,
while any repeated node hash makes it fail with
"Blob already provided before". -/
theorem C9_upload_blobs {V : Type} (blobs : List (Nat × V)) :
    ((blobs.map Prod.fst).Nodup → upload_blobs blobs = .ok blobs)
    ∧ (¬ (blobs.map Prod.fst).Nodup →
        upload_blobs blobs = .error "Blob already provided before") := by
  constructor
  · intro h
    rw [upload_blobs]
    have hres := upload_blobs_aux_ok blobs [] (by simpa using h)
    simpa using hres
  · intro h
    rw [upload_blobs]
    exact upload_blobs_aux_err blobs [] (by simp) (by simpa using h)

/-- Witness: two distinct hashes succeed; a repeated hash fails. -/
theorem C9_witness :
    upload_blobs [(1, 10), (2, 20)] = .ok [(1, 10), (2, 20)]
    ∧ upload_blobs [(1, 10), (1, 20)] = .error "Blob already provided before" :=
  ⟨(C9_upload_blobs [(1, 10), (2, 20)]).1 (by decide),
    (C9_upload_blobs [(1, 10), (1, 20)]).2 (by decide)⟩

/-! ## gettreepack deduplication: proofs -/

/-- The dedup filter never emits a hash twice nor a hash from `seen`. -/
theorem dedupEntries_nodup {α : Type} (getHash : α → Nat) :
    ∀ (l : List α) (seen : List Nat),
      ((dedupEntries getHash l seen).map getHash).Nodup
      ∧ ∀ h ∈ (dedupEntries getHash l seen).map getHash, h ∉ seen := by
  intro l
  induction l with
  | nil =>
    intro seen
    exact ⟨List.nodup_nil, by simp [dedupEntries]⟩
  | cons x xs ih =>
    intro seen
    by_cases hx : getHash x ∈ seen
    · simp only [dedupEntries, if_pos hx]
      exact ih seen
    · simp only [dedupEntries, if_neg hx, List.map_cons]
      obtain ⟨ihn, ihs⟩ := ih (getHash x :: seen)
      constructor
      · rw [List.nodup_cons]
        exact ⟨fun hmem => (ihs _ hmem) (List.mem_cons_self _ _), ihn⟩
      · intro h hmem
        rcases List.mem_cons.mp hmem with rfl | hm
        · exact hx
        · exact fun hseen => (ihs _ hm) (List.mem_cons_of_mem _ hseen)

/-- The dedup filter emits a subsequence of its input. -/
theorem dedupEntries_sublist {α : Type} (getHash : α → Nat) :
    ∀ (l : List α) (seen : List Nat), (dedupEntries getHash l seen).Sublist l := by
  intro l
  induction l with
  | nil =>
    intro seen
    simp [dedupEntries]
  | cons x xs ih =>
    intro seen
    by_cases hx : getHash x ∈ seen
    · simp only [dedupEntries, if_pos hx]
      exact (ih seen).cons x
    · simp only [dedupEntries, if_neg hx]
      exact (ih _).cons₂ x

/-- Every incoming hash is either already seen or represented in the
output. -/
theorem dedupEntries_covers {α : Type} (getHash : α → Nat) :
    ∀ (l : List α) (seen : List Nat), ∀ x ∈ l,
      getHash x ∈ seen ∨ getHash x ∈ (dedupEntries getHash l seen).map getHash := by
  intro l
  induction l with
  | nil =>
    intro seen x hx
    exact absurd hx (List.not_mem_nil x)
  | cons y ys ih =>
    intro seen x hx
    by_cases hy : getHash y ∈ seen
    · simp only [dedupEntries, if_pos hy]
      rcases List.mem_cons.mp hx with rfl | hm
      · exact Or.inl hy
      · exact ih seen x hm
    · simp only [dedupEntries, if_neg hy, List.map_cons]
      rcases List.mem_cons.mp hx with rfl | hm
      · exact Or.inr (List.mem_cons_self _ _)
      · rcases ih (getHash y :: seen) x hm with hs | hd
        · rcases List.mem_cons.mp hs with heq | hseen
          · exact Or.inr (by rw [heq]; exact List.mem_cons_self _ _)
          · exact Or.inl hseen
        · exact Or.inr (List.mem_cons_of_mem _ hd)

/-- C10: within one gettreepack response every tree-entry hash is emitted at
most once — the emitted entries form a subsequence of the changed-entry
stream with pairwise-distinct hashes, and the hash of every incoming entry
is represented among the emitted ones (duplicates are dropped, first
occurrence kept). -/
theorem C10_gettreepack_dedup {α : Type} (getHash : α → Nat) (entries : List α) :
    ((gettreepackEmitted getHash entries).map getHash).Nodup
    ∧ (gettreepackEmitted getHash entries).Sublist entries
    ∧ ∀ x ∈ entries, getHash x ∈ (gettreepackEmitted getHash entries).map getHash := by
  refine ⟨(dedupEntries_nodup getHash entries []).1,
    dedupEntries_sublist getHash entries [], ?_⟩
  intro x hx
  rcases dedupEntries_covers getHash entries [] x hx with hs | hd
  · exact absurd hs (List.not_mem_nil _)
  · exact hd

/-- Witness: the dedup theorem on a concrete entry list with colliding
hashes. -/
theorem C10_witness :
    ((gettreepackEmitted (fun x => x % 3) [1, 4, 2, 7, 5]).map (fun x => x % 3)).Nodup
    ∧ (gettreepackEmitted (fun x => x % 3) [1, 4, 2, 7, 5]).Sublist [1, 4, 2, 7, 5]
    ∧ ∀ x ∈ [1, 4, 2, 7, 5],
        (fun x => x % 3) x ∈ (gettreepackEmitted (fun x => x % 3)
          [1, 4, 2, 7, 5]).map (fun x => x % 3) :=
  C10_gettreepack_dedup (fun x => x % 3) [1, 4, 2, 7, 5]

end Mononoke
